import Mathlib

/-!
Verification development for the lokigrus log-shipping library.

The Go sources are shallowly embedded: pure helpers (formatLabels and the
strconv.Quote escaping it uses, URL normalization in NewWriter, status
classification in send) become Lean functions on lists and strings, and the
single-worker batch engine in start/mustSendBatch becomes a step function over
an explicit engine state driven by a serialized event trace, exactly mirroring
the select loop. Byte strings are modelled at Char granularity, which is exact
on the ASCII data the library manipulates.
-/

/-- Log entry, from hook.go: a Unix timestamp paired with the written line. -/
structure entry where
  time : Int
  str : String
deriving DecidableEq

/-- The fixed ingestion path segment postPath from hook.go. -/
def postPath : String := "/api/prom/push"

/-- Lexicographic code-point comparison of character lists; UTF-8 byte order
used by Go string comparison coincides with code-point order, so this models
the order underlying sort.Strings. -/
def listLe : List Char → List Char → Bool
  | [], _ => true
  | _ :: _, [] => false
  | a :: s, b :: t => if a < b then true else if b < a then false else listLe s t

/-- Go string ordering, as used by sort.Strings in formatLabels. -/
def strLe (a b : String) : Bool := listLe a.data b.data

/-- Model of sort.Strings: the unique sorted rearrangement of the input under
Go string order (an insertion sort, which computes exactly that). -/
def sortStrings (l : List String) : List String :=
  List.insertionSort (fun a b => strLe a b = true) l

/-- Lowercase hex digit character, as in the lowerhex table of strconv. -/
def hexDig (n : Nat) : Char :=
  if n < 10 then Char.ofNat (48 + n) else Char.ofNat (87 + n)

/-- Inverse of a hex digit character; accepts both letter cases like the
unhex helper of strconv. -/
def unhex (c : Char) : Option Nat :=
  if 48 ≤ c.toNat ∧ c.toNat ≤ 57 then some (c.toNat - 48)
  else if 97 ≤ c.toNat ∧ c.toNat ≤ 102 then some (c.toNat - 87)
  else if 65 ≤ c.toNat ∧ c.toNat ≤ 70 then some (c.toNat - 55)
  else none

/-- Printability predicate used when quoting. The library only ever quotes
label values; this models unicode.IsPrint on the ASCII range and treats every
other code point as non-printable, so it is escaped via a backslash-u or
backslash-U form. That choice is conservative: escaping strictly more
characters only exercises the escape cases of the convention. -/
def goIsPrint (c : Char) : Bool := decide (32 ≤ c.toNat ∧ c.toNat ≤ 126)

/-- Rendering of one character inside a double-quoted Go string literal,
following appendEscapedRune of strconv (double quote and backslash first, then
printable verbatim, then the named escapes, then hex, 4-digit and 8-digit
universal escapes), parameterized by the printability predicate. -/
def quoteChar (ip : Char → Bool) (c : Char) : List Char :=
  if c = '"' then ['\\', '"']
  else if c = '\\' then ['\\', '\\']
  else if ip c then [c]
  else if c.toNat = 7 then ['\\', 'a']
  else if c.toNat = 8 then ['\\', 'b']
  else if c.toNat = 12 then ['\\', 'f']
  else if c.toNat = 10 then ['\\', 'n']
  else if c.toNat = 13 then ['\\', 'r']
  else if c.toNat = 9 then ['\\', 't']
  else if c.toNat = 11 then ['\\', 'v']
  else if c.toNat < 32 then ['\\', 'x', hexDig (c.toNat / 16), hexDig (c.toNat % 16)]
  else if c.toNat < 65536 then
    ['\\', 'u', hexDig (c.toNat / 4096 % 16), hexDig (c.toNat / 256 % 16),
      hexDig (c.toNat / 16 % 16), hexDig (c.toNat % 16)]
  else
    ['\\', 'U', hexDig (c.toNat / 268435456 % 16), hexDig (c.toNat / 16777216 % 16),
      hexDig (c.toNat / 1048576 % 16), hexDig (c.toNat / 65536 % 16),
      hexDig (c.toNat / 4096 % 16), hexDig (c.toNat / 256 % 16),
      hexDig (c.toNat / 16 % 16), hexDig (c.toNat % 16)]

/-- Model of strconv.Quote: the value wrapped in double quotes with each
character rendered by quoteChar. -/
def strconvQuote (ip : Char → Bool) (s : String) : String :=
  String.mk ('"' :: (s.data.flatMap (quoteChar ip) ++ ['"']))

/-- Prepend a decoded character to the result of parsing the rest of a quoted
body. -/
def consF (c : Char) : Option (List Char × List Char) → Option (List Char × List Char) :=
  Option.map (fun p => (c :: p.1, p.2))

/-- Decoder for one escape sequence after a backslash, inverting the escape
forms quoteChar can emit: the two punctuation escapes, the seven named
control escapes, and the hex, 4-digit and 8-digit universal forms. Returns
the decoded character and the remaining input. -/
def parseEsc : List Char → Option (Char × List Char)
  | [] => none
  | e :: t =>
    if e = '"' then some ('"', t)
    else if e = '\\' then some ('\\', t)
    else if e = 'a' then some (Char.ofNat 7, t)
    else if e = 'b' then some (Char.ofNat 8, t)
    else if e = 'f' then some (Char.ofNat 12, t)
    else if e = 'n' then some (Char.ofNat 10, t)
    else if e = 'r' then some (Char.ofNat 13, t)
    else if e = 't' then some (Char.ofNat 9, t)
    else if e = 'v' then some (Char.ofNat 11, t)
    else if e = 'x' then
      match t with
      | d1 :: d2 :: t2 =>
        match unhex d1, unhex d2 with
        | some a, some b => some (Char.ofNat (16 * a + b), t2)
        | _, _ => none
      | _ => none
    else if e = 'u' then
      match t with
      | d1 :: d2 :: d3 :: d4 :: t2 =>
        match unhex d1, unhex d2, unhex d3, unhex d4 with
        | some a1, some a2, some a3, some a4 =>
          some (Char.ofNat (4096 * a1 + 256 * a2 + 16 * a3 + a4), t2)
        | _, _, _, _ => none
      | _ => none
    else if e = 'U' then
      match t with
      | d1 :: d2 :: d3 :: d4 :: d5 :: d6 :: d7 :: d8 :: t2 =>
        match unhex d1, unhex d2, unhex d3, unhex d4, unhex d5, unhex d6, unhex d7, unhex d8 with
        | some a1, some a2, some a3, some a4, some a5, some a6, some a7, some a8 =>
          some (Char.ofNat (268435456 * a1 + 16777216 * a2 + 1048576 * a3 + 65536 * a4
            + 4096 * a5 + 256 * a6 + 16 * a7 + a8), t2)
        | _, _, _, _, _, _, _, _ => none
      | _ => none
    else none

/-- Parser for the body of a double-quoted string literal under the same
convention quoteChar emits: plain characters stand for themselves, a
backslash starts an escape sequence, and an unescaped double quote closes
the literal; the decoded characters and the input remaining after the
closing quote are returned. Recursion is bounded by a fuel argument; every
step consumes at least one input character, so fuel exceeding the input
length never runs out. -/
def parseBodyF : Nat → List Char → Option (List Char × List Char)
  | 0, _ => none
  | _ + 1, [] => none
  | fuel + 1, c :: t =>
    if c = '"' then some ([], t)
    else if c = '\\' then
      match parseEsc t with
      | some (d, t2) => consF d (parseBodyF fuel t2)
      | none => none
    else consF c (parseBodyF fuel t)

/-- Unquoting under the same convention: strip the opening double quote,
parse the body with ample fuel, and require the closing quote to end the
input. -/
def strconvUnquote (s : String) : Option String :=
  match s.data with
  | '"' :: t =>
    match parseBodyF (t.length + 1) t with
    | some (cs, []) => some (String.mk cs)
    | _ => none
  | _ => none

/-- The sorted key list formatLabels iterates over. -/
def labelKeys (l : List (String × String)) : List String :=
  sortStrings (l.map Prod.fst)

/-- Model of formatLabels from the label-formatting source file: the label map
is modelled as an association list whose order stands for the (arbitrary) map
iteration order; keys are collected, sorted with sort.Strings, and rendered as
key-equals-quoted-value pairs separated by a comma and space inside braces. -/
def formatLabels (l : List (String × String)) : String :=
  "\x7b"
    ++ String.intercalate ", "
        ((labelKeys l).map (fun k => k ++ "=" ++ strconvQuote goIsPrint ((l.lookup k).getD "")))
    ++ "\x7d"

/-- Substring test on character lists, modelling strings.Contains. -/
def containsSub : List Char → List Char → Bool
  | s, sub =>
    match s with
    | [] => sub.isEmpty
    | _ :: t => sub.isPrefixOf s || containsSub t sub

/-- Parsed form of the destination URL, standing for the result of url.Parse:
the path is the decoded path and the query is the parsed multiset of
key-value parameters in their order of appearance. -/
structure GoURL where
  scheme : String
  host : String
  path : String
  query : List (String × String)
deriving DecidableEq

/-- Model of url.Values.Encode on the parsed query: parameters are re-emitted
sorted by key (Encode iterates the keys in sorted order; the sort is stable on
the parameter list since values of one key keep their order). -/
def encodeQuery (q : List (String × String)) : List (String × String) :=
  List.insertionSort (fun a b => strLe a.1 b.1 = true) q

/-- URL normalization performed by NewWriter (hook.go lines 90-99): when the
parsed path does not contain postPath, the path is set to postPath and the
query is re-encoded; otherwise the URL is left untouched. -/
def normalizeURL (u : GoURL) : GoURL :=
  if containsSub u.path.data postPath.data then u
  else { u with path := postPath, query := encodeQuery u.query }

/-- Drop one trailing carriage return, as dropCR in bufio.ScanLines. -/
def dropCR (l : List Char) : List Char :=
  if l.getLast? = some '\r' then l.dropLast else l

/-- First line scanned from a byte prefix by a bufio.Scanner with ScanLines:
the text before the first newline, with a trailing carriage return removed;
on empty input Scan reports false and the line stays empty, which this
function also returns. -/
def scanFirstLine (l : List Char) : List Char :=
  dropCR (l.takeWhile (fun c => !(c = '\n')))

/-- Status classification of the send function in the transport source file:
a response status inside the success range produces no error, any other
status produces the formatted error embedding the status text, the numeric
status code, and the first line scanned from at most 1024 bytes of the
response body. -/
def classifySend (status : Nat) (statusText : String) (body : List Char) : Option String :=
  if status < 200 ∨ 300 ≤ status then
    some ("server returned HTTP status " ++ statusText ++ " (" ++ toString status ++ "): "
      ++ String.mk (scanFirstLine (body.take 1024)))
  else none

/-- Ghost tag recording which code path invoked mustSendBatch for a given
flush: the size check in the select loop, the timer arm of the select, the
public Flush call, or the deferred flush on worker shutdown. -/
inductive Trigger where
  | size
  | timer
  | manual
  | closing
deriving DecidableEq

/-- One recorded flush: the batch handed to sendBatch, with its ghost trigger. -/
structure FlushRec where
  entries : List entry
  trigger : Trigger
deriving DecidableEq

/-- State owned by the single worker goroutine of hook.go, plus the
observables the claims talk about: the recorded flushes and the diagnostic
lines printed to the standard error stream (each list element is one line;
the newline that Fprintf appends is the line separator). timerArmed tracks
whether the single-shot maxTime timer has a pending expiry. -/
structure EngineState where
  batch : List entry
  timerArmed : Bool
  flushes : List FlushRec
  errLog : List String
deriving DecidableEq

/-- Model of mustSendBatch (hook.go lines 158-175) with the delivery outcome
of sendBatch supplied as a parameter (none for success, some message for the
error): an empty batch returns immediately, otherwise the timer is reset, the
batch is handed to the pipeline, a failure prints one diagnostic line, and
the batch is cleared regardless of the outcome. -/
def mustSendBatch (trig : Trigger) (outcome : Option String) (s : EngineState) : EngineState :=
  if s.batch = [] then s
  else
    { batch := []
      timerArmed := true
      flushes := s.flushes ++ [⟨s.batch, trig⟩]
      errLog := s.errLog ++ (match outcome with
        | some e => ["failed to send batch: " ++ e]
        | none => []) }

/-- Events the worker loop of start (hook.go lines 133-156) serializes: an
entry received from lineChan, an expiry of the maxTime timer, or a public
Flush call. Each event carries the delivery outcome sendBatch would produce
if that event leads to a flush. -/
inductive Event where
  | submit (e : entry) (outcome : Option String)
  | timerFire (outcome : Option String)
  | manualFlush (outcome : Option String)
deriving DecidableEq

/-- One iteration of the worker loop on one event. Receiving an entry appends
it to the batch and flushes when the batch length has reached MaxBatchCount;
a timer expiry can only be received while the single-shot timer is armed, and
consumes the arming before flushing (the timer is re-armed only by the Reset
inside a non-empty mustSendBatch). -/
def step (maxBatchCount : Nat) (s : EngineState) : Event → EngineState
  | Event.submit e out =>
    let s2 : EngineState := { s with batch := s.batch ++ [e] }
    if maxBatchCount ≤ s2.batch.length then mustSendBatch Trigger.size out s2 else s2
  | Event.timerFire out =>
    if s.timerArmed then mustSendBatch Trigger.timer out { s with timerArmed := false } else s
  | Event.manualFlush out => mustSendBatch Trigger.manual out s

/-- State at worker start: empty batch, timer freshly armed by NewTimer. -/
def initState : EngineState := ⟨[], true, [], []⟩

/-- Run of the worker loop from a given state over a serialized event trace. -/
def runFrom (maxBatchCount : Nat) (s : EngineState) : List Event → EngineState
  | [] => s
  | ev :: t => runFrom maxBatchCount (step maxBatchCount s ev) t

/-- Run of the worker loop from engine start. -/
def runEvents (maxBatchCount : Nat) (evs : List Event) : EngineState :=
  runFrom maxBatchCount initState evs

/-- Closing lineChan breaks the loop and the deferred mustSendBatch performs
the final flush; this is the engine state at worker exit. -/
def runClose (maxBatchCount : Nat) (evs : List Event) (out : Option String) : EngineState :=
  mustSendBatch Trigger.closing out (runEvents maxBatchCount evs)

/-- Entries carried by submit events, in submission order. -/
def submittedOf (evs : List Event) : List entry :=
  evs.filterMap (fun ev => match ev with
    | Event.submit e _ => some e
    | _ => none)

/-- Concatenation of all recorded flushed batches, in flush order. -/
def flushedEntries (s : EngineState) : List entry :=
  (s.flushes.map FlushRec.entries).flatten

/-- The sentinel error value ErrInvalidJSON, identified by its message. -/
def errInvalidJSON : String := "invalid json written"

/-- Result of one Write call: the returned byte count and error, the channel
contents after the call, and the payloads mirrored to the secondary output
sink during the call. -/
structure WriteRes where
  n : Nat
  err : Option String
  chanAfter : List entry
  mirrored : List String
deriving DecidableEq

/-- Model of the Write method (hook.go lines 109-120). json.Valid is an
external collaborator and is passed as an abstract predicate; the secondary
sink Out is either nil or a function giving the count and error its own Write
returns for a payload. When validation is enabled and fails, Write returns
zero and ErrInvalidJSON at once; otherwise the entry is sent on lineChan
(modelled as appending to the channel queue) and the result of the sink
write, or the payload length for a nil sink, is returned. -/
def WriteCall (checkJSON : Bool) (jsonValid : String → Bool)
    (outSink : Option (String → Nat × Option String)) (now : Int)
    (chan : List entry) (b : String) : WriteRes :=
  if checkJSON ∧ ¬ jsonValid b then ⟨0, some errInvalidJSON, chan, []⟩
  else
    match outSink with
    | some f => ⟨(f b).1, (f b).2, chan ++ [⟨now, b⟩], [b]⟩
    | none => ⟨b.length, none, chan ++ [⟨now, b⟩], []⟩

/-- Construction-time configuration of a Writer, restricted to the fields the
claims mention. -/
structure WriterCfg where
  outSink : Option (String → Nat × Option String)
  maxBatchAgeNs : Int
  maxBatchCount : Int
  checkJSON : Bool

/-- Model of the option application in NewWriter (hook.go lines 77-88): the
defaults are a standard-output sink, a thirty-second age, a count of five and
JSON validation on, then the option functions run in order. The stdout sink
is abstract since os.Stdout is external. -/
def newWriterCfg (stdout : String → Nat × Option String)
    (opts : List (WriterCfg → WriterCfg)) : WriterCfg :=
  opts.foldl (fun c f => f c) ⟨some stdout, 30000000000, 5, true⟩

/-- Two characters neither of which is less than the other are equal. -/
theorem char_eq_of_not_lt {a b : Char} (h1 : ¬ a < b) (h2 : ¬ b < a) : a = b :=
  le_antisymm (not_lt.mp h2) (not_lt.mp h1)

/-- Every code point is below the Unicode bound. -/
theorem char_toNat_lt (c : Char) : c.toNat < 1114112 := by
  have h := c.valid
  have he : c.toNat = c.val.toNat := rfl
  rcases h with h | h <;> omega

/-- Hex digit characters decode back to their value. -/
theorem unhex_hexDig (n : Nat) (h : n < 16) : unhex (hexDig n) = some n := by
  interval_cases n <;> decide

/-- The character-list order is total. -/
theorem listLe_total (s t : List Char) : listLe s t = true ∨ listLe t s = true := by
  induction s generalizing t with
  | nil => left; rfl
  | cons a s ih =>
    cases t with
    | nil => right; rfl
    | cons b t =>
      by_cases hab : a < b
      · left; simp [listLe, hab]
      · by_cases hba : b < a
        · right; simp [listLe, hba]
        · have hev : a = b := char_eq_of_not_lt hab hba
          subst hev
          rcases ih t with h | h
          · left; simp [listLe, lt_irrefl, h]
          · right; simp [listLe, lt_irrefl, h]

/-- The character-list order is transitive. -/
theorem listLe_trans (s t u : List Char) (h1 : listLe s t = true) (h2 : listLe t u = true) :
    listLe s u = true := by
  induction s generalizing t u with
  | nil => rfl
  | cons a s ih =>
    cases t with
    | nil => simp [listLe] at h1
    | cons b t =>
      cases u with
      | nil => simp [listLe] at h2
      | cons c u =>
        simp only [listLe] at h1 h2 ⊢
        by_cases hab : a < b
        · by_cases hbc : b < c
          · simp [lt_trans hab hbc]
          · by_cases hcb : c < b
            · simp [hbc, hcb] at h2
            · have hev : b = c := char_eq_of_not_lt hbc hcb
              subst hev
              simp [hab]
        · by_cases hba : b < a
          · simp [hab, hba] at h1
          · have hev : a = b := char_eq_of_not_lt hab hba
            subst hev
            by_cases hac : a < c
            · simp [hac]
            · by_cases hca : c < a
              · simp [hac, hca] at h2
              · have hev2 : a = c := char_eq_of_not_lt hac hca
                subst hev2
                simp [lt_irrefl] at h1 h2 ⊢
                exact ih t u h1 h2

/-- The character-list order is antisymmetric. -/
theorem listLe_antisymm (s t : List Char) (h1 : listLe s t = true) (h2 : listLe t s = true) :
    s = t := by
  induction s generalizing t with
  | nil =>
    cases t with
    | nil => rfl
    | cons b t => simp [listLe] at h2
  | cons a s ih =>
    cases t with
    | nil => simp [listLe] at h1
    | cons b t =>
      by_cases hab : a < b
      · simp [listLe, hab, lt_asymm hab] at h2
      · by_cases hba : b < a
        · simp [listLe, hab, hba] at h1
        · have hev : a = b := char_eq_of_not_lt hab hba
          subst hev
          simp only [listLe, lt_irrefl, if_false] at h1 h2
          rw [ih t h1 h2]

/-- Go string order is total. -/
theorem strLe_total (a b : String) : strLe a b = true ∨ strLe b a = true :=
  listLe_total a.data b.data

/-- Go string order is transitive. -/
theorem strLe_trans (a b c : String) (h1 : strLe a b = true) (h2 : strLe b c = true) :
    strLe a c = true :=
  listLe_trans a.data b.data c.data h1 h2

/-- Go string order is antisymmetric. -/
theorem strLe_antisymm (a b : String) (h1 : strLe a b = true) (h2 : strLe b a = true) :
    a = b := by
  have h := listLe_antisymm a.data b.data h1 h2
  cases a
  cases b
  exact congrArg String.mk h

/-- Parsing inverts the rendering of a single character: whatever quoteChar
emits for a character, followed by any continuation, parses back to that
character followed by the parse of the continuation on one unit less fuel. -/
theorem parseBodyF_quoteChar (ip : Char → Bool) (c : Char) (f : Nat) (t : List Char) :
    parseBodyF (f + 1) (quoteChar ip c ++ t) = consF c (parseBodyF f t) := by
  simp only [quoteChar]
  by_cases h1 : c = '"'
  · rw [if_pos h1]
    show parseBodyF (f + 1) ('\\' :: '"' :: t) = consF c (parseBodyF f t)
    rw [h1]
    rfl
  rw [if_neg h1]
  by_cases h2 : c = '\\'
  · rw [if_pos h2]
    show parseBodyF (f + 1) ('\\' :: '\\' :: t) = consF c (parseBodyF f t)
    rw [h2]
    rfl
  rw [if_neg h2]
  by_cases h3 : ip c
  · rw [if_pos h3]
    show parseBodyF (f + 1) (c :: t) = consF c (parseBodyF f t)
    simp [parseBodyF, h1, h2]
  rw [if_neg h3]
  by_cases h7 : c.toNat = 7
  · rw [if_pos h7]
    show parseBodyF (f + 1) ('\\' :: 'a' :: t) = consF c (parseBodyF f t)
    have hc : Char.ofNat 7 = c := by rw [← h7, Char.ofNat_toNat]
    rw [← hc]
    rfl
  rw [if_neg h7]
  by_cases h8 : c.toNat = 8
  · rw [if_pos h8]
    show parseBodyF (f + 1) ('\\' :: 'b' :: t) = consF c (parseBodyF f t)
    have hc : Char.ofNat 8 = c := by rw [← h8, Char.ofNat_toNat]
    rw [← hc]
    rfl
  rw [if_neg h8]
  by_cases h12 : c.toNat = 12
  · rw [if_pos h12]
    show parseBodyF (f + 1) ('\\' :: 'f' :: t) = consF c (parseBodyF f t)
    have hc : Char.ofNat 12 = c := by rw [← h12, Char.ofNat_toNat]
    rw [← hc]
    rfl
  rw [if_neg h12]
  by_cases h10 : c.toNat = 10
  · rw [if_pos h10]
    show parseBodyF (f + 1) ('\\' :: 'n' :: t) = consF c (parseBodyF f t)
    have hc : Char.ofNat 10 = c := by rw [← h10, Char.ofNat_toNat]
    rw [← hc]
    rfl
  rw [if_neg h10]
  by_cases h13 : c.toNat = 13
  · rw [if_pos h13]
    show parseBodyF (f + 1) ('\\' :: 'r' :: t) = consF c (parseBodyF f t)
    have hc : Char.ofNat 13 = c := by rw [← h13, Char.ofNat_toNat]
    rw [← hc]
    rfl
  rw [if_neg h13]
  by_cases h9 : c.toNat = 9
  · rw [if_pos h9]
    show parseBodyF (f + 1) ('\\' :: 't' :: t) = consF c (parseBodyF f t)
    have hc : Char.ofNat 9 = c := by rw [← h9, Char.ofNat_toNat]
    rw [← hc]
    rfl
  rw [if_neg h9]
  by_cases h11 : c.toNat = 11
  · rw [if_pos h11]
    show parseBodyF (f + 1) ('\\' :: 'v' :: t) = consF c (parseBodyF f t)
    have hc : Char.ofNat 11 = c := by rw [← h11, Char.ofNat_toNat]
    rw [← hc]
    rfl
  rw [if_neg h11]
  by_cases h32 : c.toNat < 32
  · rw [if_pos h32]
    show parseBodyF (f + 1) ('\\' :: 'x' :: hexDig (c.toNat / 16) :: hexDig (c.toNat % 16) :: t)
      = consF c (parseBodyF f t)
    have d1 : unhex (hexDig (c.toNat / 16)) = some (c.toNat / 16) := unhex_hexDig _ (by omega)
    have d2 : unhex (hexDig (c.toNat % 16)) = some (c.toNat % 16) := unhex_hexDig _ (by omega)
    have hsum : 16 * (c.toNat / 16) + c.toNat % 16 = c.toNat := by omega
    simp [parseBodyF, parseEsc, d1, d2, hsum, Char.ofNat_toNat]
  rw [if_neg h32]
  by_cases h64k : c.toNat < 65536
  · rw [if_pos h64k]
    show parseBodyF (f + 1) ('\\' :: 'u' :: hexDig (c.toNat / 4096 % 16)
        :: hexDig (c.toNat / 256 % 16) :: hexDig (c.toNat / 16 % 16) :: hexDig (c.toNat % 16)
        :: t) = consF c (parseBodyF f t)
    have d1 : unhex (hexDig (c.toNat / 4096 % 16)) = some (c.toNat / 4096 % 16) :=
      unhex_hexDig _ (by omega)
    have d2 : unhex (hexDig (c.toNat / 256 % 16)) = some (c.toNat / 256 % 16) :=
      unhex_hexDig _ (by omega)
    have d3 : unhex (hexDig (c.toNat / 16 % 16)) = some (c.toNat / 16 % 16) :=
      unhex_hexDig _ (by omega)
    have d4 : unhex (hexDig (c.toNat % 16)) = some (c.toNat % 16) := unhex_hexDig _ (by omega)
    have hsum : 4096 * (c.toNat / 4096 % 16) + 256 * (c.toNat / 256 % 16)
        + 16 * (c.toNat / 16 % 16) + c.toNat % 16 = c.toNat := by omega
    simp [parseBodyF, parseEsc, d1, d2, d3, d4, hsum, Char.ofNat_toNat]
  rw [if_neg h64k]
  have hbound : c.toNat < 1114112 := char_toNat_lt c
  show parseBodyF (f + 1) ('\\' :: 'U' :: hexDig (c.toNat / 268435456 % 16)
      :: hexDig (c.toNat / 16777216 % 16) :: hexDig (c.toNat / 1048576 % 16)
      :: hexDig (c.toNat / 65536 % 16) :: hexDig (c.toNat / 4096 % 16)
      :: hexDig (c.toNat / 256 % 16) :: hexDig (c.toNat / 16 % 16)
      :: hexDig (c.toNat % 16) :: t) = consF c (parseBodyF f t)
  have d1 : unhex (hexDig (c.toNat / 268435456 % 16)) = some (c.toNat / 268435456 % 16) :=
    unhex_hexDig _ (by omega)
  have d2 : unhex (hexDig (c.toNat / 16777216 % 16)) = some (c.toNat / 16777216 % 16) :=
    unhex_hexDig _ (by omega)
  have d3 : unhex (hexDig (c.toNat / 1048576 % 16)) = some (c.toNat / 1048576 % 16) :=
    unhex_hexDig _ (by omega)
  have d4 : unhex (hexDig (c.toNat / 65536 % 16)) = some (c.toNat / 65536 % 16) :=
    unhex_hexDig _ (by omega)
  have d5 : unhex (hexDig (c.toNat / 4096 % 16)) = some (c.toNat / 4096 % 16) :=
    unhex_hexDig _ (by omega)
  have d6 : unhex (hexDig (c.toNat / 256 % 16)) = some (c.toNat / 256 % 16) :=
    unhex_hexDig _ (by omega)
  have d7 : unhex (hexDig (c.toNat / 16 % 16)) = some (c.toNat / 16 % 16) :=
    unhex_hexDig _ (by omega)
  have d8 : unhex (hexDig (c.toNat % 16)) = some (c.toNat % 16) := unhex_hexDig _ (by omega)
  have hsum : 268435456 * (c.toNat / 268435456 % 16) + 16777216 * (c.toNat / 16777216 % 16)
      + 1048576 * (c.toNat / 1048576 % 16) + 65536 * (c.toNat / 65536 % 16)
      + 4096 * (c.toNat / 4096 % 16) + 256 * (c.toNat / 256 % 16)
      + 16 * (c.toNat / 16 % 16) + c.toNat % 16 = c.toNat := by omega
  simp [parseBodyF, parseEsc, d1, d2, d3, d4, d5, d6, d7, d8, hsum, Char.ofNat_toNat]

/-- Parsing inverts the rendering of a whole character list up to the closing
quote, given fuel exceeding the number of rendered characters. -/
theorem parseBodyF_quoted (ip : Char → Bool) (cs : List Char) (f : Nat) (t : List Char)
    (hf : cs.length + 1 ≤ f) :
    parseBodyF f (cs.flatMap (quoteChar ip) ++ '"' :: t) = some (cs, t) := by
  induction cs generalizing f with
  | nil =>
    cases f with
    | zero => omega
    | succ f2 => rfl
  | cons c cs ih =>
    cases f with
    | zero => omega
    | succ f2 =>
      rw [List.flatMap_cons, List.append_assoc, parseBodyF_quoteChar ip c f2 _,
        ih f2 (by simp at hf; omega)]
      rfl

/-- Every character renders to at least one character. -/
theorem quoteChar_length_pos (ip : Char → Bool) (c : Char) : 1 ≤ (quoteChar ip c).length := by
  unfold quoteChar
  by_cases h1 : c = '"'
  · rw [if_pos h1]; simp
  rw [if_neg h1]
  by_cases h2 : c = '\\'
  · rw [if_pos h2]; simp
  rw [if_neg h2]
  by_cases h3 : ip c
  · rw [if_pos h3]; simp
  rw [if_neg h3]
  by_cases h7 : c.toNat = 7
  · rw [if_pos h7]; simp
  rw [if_neg h7]
  by_cases h8 : c.toNat = 8
  · rw [if_pos h8]; simp
  rw [if_neg h8]
  by_cases h12 : c.toNat = 12
  · rw [if_pos h12]; simp
  rw [if_neg h12]
  by_cases h10 : c.toNat = 10
  · rw [if_pos h10]; simp
  rw [if_neg h10]
  by_cases h13 : c.toNat = 13
  · rw [if_pos h13]; simp
  rw [if_neg h13]
  by_cases h9 : c.toNat = 9
  · rw [if_pos h9]; simp
  rw [if_neg h9]
  by_cases h11 : c.toNat = 11
  · rw [if_pos h11]; simp
  rw [if_neg h11]
  by_cases h32 : c.toNat < 32
  · rw [if_pos h32]; simp
  rw [if_neg h32]
  by_cases h64k : c.toNat < 65536
  · rw [if_pos h64k]; simp
  rw [if_neg h64k]
  simp

/-- Rendering a character list never shrinks it. -/
theorem flatMapQuote_length (ip : Char → Bool) (cs : List Char) :
    cs.length ≤ (cs.flatMap (quoteChar ip)).length := by
  induction cs with
  | nil => simp
  | cons c cs ih =>
    rw [List.flatMap_cons, List.length_append]
    have h := quoteChar_length_pos ip c
    simp only [List.length_cons]
    omega

/-- sortStrings permutes its input. -/
theorem sortStrings_perm (l : List String) : List.Perm (sortStrings l) l :=
  List.perm_insertionSort _ l

/-- sortStrings sorts its input under Go string order. -/
theorem sortStrings_sorted (l : List String) :
    List.Sorted (fun a b => strLe a b = true) (sortStrings l) := by
  haveI : IsTotal String (fun a b => strLe a b = true) := ⟨strLe_total⟩
  haveI : IsTrans String (fun a b => strLe a b = true) := ⟨strLe_trans⟩
  exact List.sorted_insertionSort _ l

/-- Sorting is invariant under permutation of the input. -/
theorem sortStrings_eq_of_perm (l1 l2 : List String) (p : List.Perm l1 l2) :
    sortStrings l1 = sortStrings l2 := by
  haveI : IsAntisymm String (fun a b => strLe a b = true) := ⟨strLe_antisymm⟩
  exact List.eq_of_perm_of_sorted
    (((sortStrings_perm l1).trans p).trans (sortStrings_perm l2).symm)
    (sortStrings_sorted l1) (sortStrings_sorted l2)

/-- Association-list lookup is invariant under permutation when keys are
distinct. -/
theorem lookup_eq_of_perm {l1 l2 : List (String × String)} (p : List.Perm l1 l2) :
    (l1.map Prod.fst).Nodup → ∀ k, List.lookup k l1 = List.lookup k l2 := by
  induction p with
  | nil => intro _ _; rfl
  | cons a _ ih =>
    intro nd k
    obtain ⟨k1, v1⟩ := a
    simp only [List.map_cons] at nd
    have nd2 := List.Nodup.of_cons nd
    by_cases hk : k = k1
    · simp [List.lookup, hk]
    · have hb : (k == k1) = false := by simp [hk]
      simp [List.lookup, hb, ih nd2 k]
  | swap x y l =>
    intro nd k
    obtain ⟨k1, v1⟩ := x
    obtain ⟨k2, v2⟩ := y
    have hne : ¬ k2 = k1 := by
      intro he
      subst he
      simp at nd
    by_cases h1 : k = k2 <;> by_cases h2 : k = k1
    · exact absurd (h1.symm.trans h2) hne
    · have b1 : (k == k2) = true := by simp [h1]
      have b2 : (k == k1) = false := by simp [h2]
      simp [List.lookup, b1, b2]
    · have b1 : (k == k2) = false := by simp [h1]
      have b2 : (k == k1) = true := by simp [h2]
      simp [List.lookup, b1, b2]
    · have b1 : (k == k2) = false := by simp [h1]
      have b2 : (k == k1) = false := by simp [h2]
      simp [List.lookup, b1, b2]
  | trans p1 _ ih1 ih2 =>
    intro nd k
    have nd2 : _ := ((p1.map Prod.fst).nodup_iff).mp nd
    exact (ih1 nd k).trans (ih2 nd2 k)

/-- mustSendBatch on an empty batch is the identity (and in particular does
not re-arm the timer). -/
theorem mustSendBatch_empty (trig : Trigger) (out : Option String) (s : EngineState)
    (he : s.batch = []) : mustSendBatch trig out s = s := by
  simp only [mustSendBatch]
  rw [if_pos he]

/-- mustSendBatch on a non-empty batch: the batch is recorded as one flush,
cleared, the timer re-armed, and a failure outcome appends one diagnostic
line. -/
theorem mustSendBatch_spec (trig : Trigger) (out : Option String) (s : EngineState)
    (hne : ¬ s.batch = []) :
    mustSendBatch trig out s
      = { batch := []
          timerArmed := true
          flushes := s.flushes ++ [⟨s.batch, trig⟩]
          errLog := s.errLog ++ (match out with
            | some e => ["failed to send batch: " ++ e]
            | none => []) } := by
  simp only [mustSendBatch]
  rw [if_neg hne]

/-- The batch is empty after any mustSendBatch call. -/
theorem mustSendBatch_batch_nil (trig : Trigger) (out : Option String) (s : EngineState) :
    (mustSendBatch trig out s).batch = [] := by
  by_cases h : s.batch = []
  · rw [mustSendBatch_empty trig out s h]
    exact h
  · rw [mustSendBatch_spec trig out s h]

/-- Unfolding of step on an entry arrival. -/
theorem step_submit (cfg : Nat) (s : EngineState) (e : entry) (out : Option String) :
    step cfg s (Event.submit e out)
      = if cfg ≤ s.batch.length + 1
        then mustSendBatch Trigger.size out { s with batch := s.batch ++ [e] }
        else { s with batch := s.batch ++ [e] } := by
  simp [step]

/-- Unfolding of step on a timer expiry. -/
theorem step_timer (cfg : Nat) (s : EngineState) (out : Option String) :
    step cfg s (Event.timerFire out)
      = if s.timerArmed
        then mustSendBatch Trigger.timer out { s with timerArmed := false }
        else s := rfl

/-- Unfolding of step on a public Flush call. -/
theorem step_manual (cfg : Nat) (s : EngineState) (out : Option String) :
    step cfg s (Event.manualFlush out) = mustSendBatch Trigger.manual out s := rfl

/-- Runs decompose over trace concatenation. -/
theorem runFrom_append (cfg : Nat) (s : EngineState) (l1 l2 : List Event) :
    runFrom cfg s (l1 ++ l2) = runFrom cfg (runFrom cfg s l1) l2 := by
  induction l1 generalizing s with
  | nil => rfl
  | cons ev t ih => simp only [List.cons_append, runFrom]; exact ih _

/-- Once the single-shot timer is disarmed, timer events can never occur
again (the channel receive blocks forever), so any further run consisting
only of timer events leaves the state unchanged. -/
theorem runFrom_timerFires_dead (cfg : Nat) (s : EngineState) (outs : List (Option String))
    (ha : s.timerArmed = false) :
    runFrom cfg s (outs.map Event.timerFire) = s := by
  induction outs with
  | nil => rfl
  | cons o t ih =>
    simp only [List.map_cons, runFrom]
    rw [step_timer, if_neg (by simp [ha])]
    exact ih

/-- Core invariant of the worker loop: with a positive configured count, the
buffered batch always stays strictly below the count, every recorded flush
carries at most the count, and every size-triggered flush carries exactly
the count. -/
theorem runFrom_inv (cfg : Nat) (hcfg : 1 ≤ cfg) (evs : List Event) (s : EngineState)
    (hb : s.batch.length < cfg)
    (hf : ∀ r ∈ s.flushes,
      r.entries.length ≤ cfg ∧ (r.trigger = Trigger.size → r.entries.length = cfg)) :
    (runFrom cfg s evs).batch.length < cfg
      ∧ ∀ r ∈ (runFrom cfg s evs).flushes,
          r.entries.length ≤ cfg ∧ (r.trigger = Trigger.size → r.entries.length = cfg) := by
  induction evs generalizing s with
  | nil => exact ⟨hb, hf⟩
  | cons ev t ih =>
    have hstep : (step cfg s ev).batch.length < cfg
        ∧ ∀ r ∈ (step cfg s ev).flushes,
            r.entries.length ≤ cfg ∧ (r.trigger = Trigger.size → r.entries.length = cfg) := by
      cases ev with
      | submit e out =>
        rw [step_submit]
        by_cases hge : cfg ≤ s.batch.length + 1
        · rw [if_pos hge]
          rw [mustSendBatch_spec _ _ _ (by simp)]
          refine ⟨by simpa using hcfg, ?_⟩
          intro r hr
          simp only [List.mem_append, List.mem_singleton] at hr
          rcases hr with hr | hr
          · exact hf r (by simpa using hr)
          · subst hr
            constructor
            · simp
              omega
            · intro _
              simp
              omega
        · rw [if_neg hge]
          refine ⟨by simp; omega, ?_⟩
          intro r hr
          exact hf r (by simpa using hr)
      | timerFire out =>
        rw [step_timer]
        by_cases ha : s.timerArmed
        · rw [if_pos ha]
          by_cases hbe : s.batch = []
          · rw [mustSendBatch_empty _ _ _ (by simpa using hbe)]
            exact ⟨by simpa using hb, fun r hr => hf r (by simpa using hr)⟩
          · rw [mustSendBatch_spec _ _ _ (by simpa using hbe)]
            refine ⟨by simpa using hcfg, ?_⟩
            intro r hr
            simp only [List.mem_append, List.mem_singleton] at hr
            rcases hr with hr | hr
            · exact hf r (by simpa using hr)
            · subst hr
              exact ⟨by simpa using le_of_lt hb, fun hh => absurd hh (by simp)⟩
        · rw [if_neg ha]
          exact ⟨hb, hf⟩
      | manualFlush out =>
        rw [step_manual]
        by_cases hbe : s.batch = []
        · rw [mustSendBatch_empty _ _ _ hbe]
          exact ⟨hb, hf⟩
        · rw [mustSendBatch_spec _ _ _ hbe]
          refine ⟨by simpa using hcfg, ?_⟩
          intro r hr
          simp only [List.mem_append, List.mem_singleton] at hr
          rcases hr with hr | hr
          · exact hf r hr
          · subst hr
            exact ⟨le_of_lt hb, fun hh => absurd hh (by simp)⟩
    simp only [runFrom]
    exact ih _ hstep.1 hstep.2

/-- Entries contributed by one event. -/
theorem submittedOf_cons (ev : Event) (t : List Event) :
    submittedOf (ev :: t)
      = (match ev with | Event.submit e _ => [e] | _ => []) ++ submittedOf t := by
  cases ev <;> simp [submittedOf]

/-- Accounting invariant: the entries flushed so far followed by the entries
still buffered are exactly the submitted entries, in submission order. -/
theorem runFrom_account (cfg : Nat) (evs : List Event) (s : EngineState) :
    flushedEntries (runFrom cfg s evs) ++ (runFrom cfg s evs).batch
      = flushedEntries s ++ s.batch ++ submittedOf evs := by
  induction evs generalizing s with
  | nil => simp [runFrom, submittedOf]
  | cons ev t ih =>
    have hstep : flushedEntries (step cfg s ev) ++ (step cfg s ev).batch
        = flushedEntries s ++ s.batch
            ++ (match ev with | Event.submit e _ => [e] | _ => []) := by
      cases ev with
      | submit e out =>
        rw [step_submit]
        by_cases hge : cfg ≤ s.batch.length + 1
        · rw [if_pos hge, mustSendBatch_spec _ _ _ (by simp)]
          simp [flushedEntries]
        · rw [if_neg hge]
          simp [flushedEntries, List.append_assoc]
      | timerFire out =>
        rw [step_timer]
        by_cases ha : s.timerArmed
        · rw [if_pos ha]
          by_cases hbe : s.batch = []
          · rw [mustSendBatch_empty _ _ _ (by simpa using hbe)]
            simp [flushedEntries, hbe]
          · rw [mustSendBatch_spec _ _ _ (by simpa using hbe)]
            simp [flushedEntries]
        · rw [if_neg ha]
          simp
      | manualFlush out =>
        rw [step_manual]
        by_cases hbe : s.batch = []
        · rw [mustSendBatch_empty _ _ _ hbe]
          simp [hbe]
        · rw [mustSendBatch_spec _ _ _ hbe]
          simp [flushedEntries]
    simp only [runFrom]
    rw [ih _, hstep, submittedOf_cons, List.append_assoc]

/-- C1 (refuted, code bug): after the maxTime timer expires while the batch
is empty, the early return of mustSendBatch skips the Reset, so the
single-shot timer is never re-armed; a single entry submitted afterwards is
then never flushed no matter how much further time passes (no timer event
can occur again, modelled by timer events being no-ops once disarmed). The
flush record stays empty and the entry stays buffered, contradicting the
claimed exactly-one flush within maxBatchAge. -/
theorem timer_dead_after_empty_expiry (e : entry) (outs : List (Option String)) :
    (runEvents 5 (Event.timerFire none :: Event.submit e none
        :: outs.map Event.timerFire)).flushes = []
  ∧ (runEvents 5 (Event.timerFire none :: Event.submit e none
        :: outs.map Event.timerFire)).batch = [e]
  ∧ (runEvents 5 (Event.timerFire none :: Event.submit e none
        :: outs.map Event.timerFire)).timerArmed = false := by
  have hsplit : Event.timerFire none :: Event.submit e none :: outs.map Event.timerFire
      = [Event.timerFire none, Event.submit e none] ++ outs.map Event.timerFire := rfl
  have hpre : runFrom 5 initState [Event.timerFire none, Event.submit e none]
      = ⟨[e], false, [], []⟩ := rfl
  unfold runEvents
  rw [hsplit, runFrom_append, hpre, runFrom_timerFires_dead 5 _ outs rfl]
  exact ⟨rfl, rfl, rfl⟩

/-- C2 (counterexample): for the parsed URL with path /base, the normalized
path is not the original path with the ingestion segment appended — the code
replaces the path outright. -/
theorem normalizeURL_not_append :
    ¬ ((normalizeURL ⟨"http", "loki:3100", "/base", [("x", "1")]⟩).path
        = "/base" ++ postPath) := by
  decide

/-- C2 (amended): when the parsed path does not contain the ingestion
segment, the stored path becomes exactly the segment (replacing the original
path) and the query parameters are preserved as a multiset, re-emitted in
the canonical sorted encoding; a URL whose path already contains the segment
is left unchanged. -/
theorem normalizeURL_spec (u : GoURL) :
    (containsSub u.path.data postPath.data = false →
      (normalizeURL u).path = postPath ∧ List.Perm (normalizeURL u).query u.query)
  ∧ (containsSub u.path.data postPath.data = true → normalizeURL u = u) := by
  constructor
  · intro h
    simp only [normalizeURL]
    rw [if_neg (by simp [h])]
    exact ⟨rfl, List.perm_insertionSort _ _⟩
  · intro h
    simp only [normalizeURL]
    rw [if_pos h]

theorem normalizeURL_spec_witness :
    (normalizeURL ⟨"http", "loki:3100", "/base", [("x", "1")]⟩).path = postPath
  ∧ List.Perm (normalizeURL ⟨"http", "loki:3100", "/base", [("x", "1")]⟩).query [("x", "1")] :=
  (normalizeURL_spec ⟨"http", "loki:3100", "/base", [("x", "1")]⟩).1 (by decide)

/-- C3: with a positive configured count, every flush the engine ever
records — including the final flush on close — carries at most maxBatchCount
entries, and a size-triggered flush carries exactly maxBatchCount. -/
theorem flush_count_bound (cfg : Nat) (hcfg : 1 ≤ cfg) (evs : List Event) (out : Option String)
    (r : FlushRec) (hr : r ∈ (runClose cfg evs out).flushes) :
    r.entries.length ≤ cfg ∧ (r.trigger = Trigger.size → r.entries.length = cfg) := by
  have h := runFrom_inv cfg hcfg evs initState (by simpa [initState] using hcfg)
    (by intro r hr; simp [initState] at hr)
  unfold runClose runEvents at hr
  by_cases hbe : (runFrom cfg initState evs).batch = []
  · rw [mustSendBatch_empty _ _ _ hbe] at hr
    exact h.2 r hr
  · rw [mustSendBatch_spec _ _ _ hbe] at hr
    simp only [List.mem_append, List.mem_singleton] at hr
    rcases hr with hr | hr
    · exact h.2 r hr
    · subst hr
      exact ⟨le_of_lt h.1, fun hh => absurd hh (by simp)⟩

theorem flush_count_bound_witness :
    (⟨[⟨0, "a"⟩, ⟨0, "b"⟩], Trigger.size⟩ : FlushRec).entries.length ≤ 2
  ∧ ((⟨[⟨0, "a"⟩, ⟨0, "b"⟩], Trigger.size⟩ : FlushRec).trigger = Trigger.size
      → (⟨[⟨0, "a"⟩, ⟨0, "b"⟩], Trigger.size⟩ : FlushRec).entries.length = 2) :=
  flush_count_bound 2 (by decide) [Event.submit ⟨0, "a"⟩ none, Event.submit ⟨0, "b"⟩ none] none
    ⟨[⟨0, "a"⟩, ⟨0, "b"⟩], Trigger.size⟩ (by decide)

/-- C4: closing the channel with a non-empty buffered batch below the count
threshold produces exactly one additional flush, containing exactly the
buffered entries, and those are precisely the submitted-but-unflushed
entries in submission order. -/
theorem close_final_flush (cfg : Nat) (evs : List Event) (out : Option String)
    (h0 : ¬ (runEvents cfg evs).batch = [])
    (h1 : (runEvents cfg evs).batch.length < cfg) :
    (runClose cfg evs out).flushes
        = (runEvents cfg evs).flushes ++ [⟨(runEvents cfg evs).batch, Trigger.closing⟩]
    ∧ (runClose cfg evs out).batch = []
    ∧ flushedEntries (runEvents cfg evs) ++ (runEvents cfg evs).batch = submittedOf evs := by
  refine ⟨?_, ?_, ?_⟩
  · unfold runClose
    rw [mustSendBatch_spec _ _ _ h0]
  · unfold runClose
    rw [mustSendBatch_spec _ _ _ h0]
  · have h := runFrom_account cfg evs initState
    simpa [runEvents, initState, flushedEntries] using h

theorem close_final_flush_witness :
    (runClose 5 [Event.submit ⟨0, "a"⟩ none] none).flushes
        = (runEvents 5 [Event.submit ⟨0, "a"⟩ none]).flushes
          ++ [⟨(runEvents 5 [Event.submit ⟨0, "a"⟩ none]).batch, Trigger.closing⟩]
    ∧ (runClose 5 [Event.submit ⟨0, "a"⟩ none] none).batch = []
    ∧ flushedEntries (runEvents 5 [Event.submit ⟨0, "a"⟩ none])
        ++ (runEvents 5 [Event.submit ⟨0, "a"⟩ none]).batch
        = submittedOf [Event.submit ⟨0, "a"⟩ none] :=
  close_final_flush 5 [Event.submit ⟨0, "a"⟩ none] none (by decide) (by decide)

/-- C5: the transport classification returns no error exactly for status
codes in the success range, and for any other status the error is the
formatted message embedding the status text, the numeric code, and a line
that is a prefix of the response body of at most 1024 characters. -/
theorem classifySend_spec (status : Nat) (stext : String) (body : List Char) :
    (classifySend status stext body = none ↔ 200 ≤ status ∧ status < 300)
  ∧ (status < 200 ∨ 300 ≤ status →
      classifySend status stext body
          = some ("server returned HTTP status " ++ stext ++ " (" ++ toString status ++ "): "
              ++ String.mk (scanFirstLine (body.take 1024)))
        ∧ scanFirstLine (body.take 1024) <+: body
        ∧ (scanFirstLine (body.take 1024)).length ≤ 1024) := by
  have hpfx : scanFirstLine (body.take 1024) <+: body.take 1024 := by
    have h1 : List.takeWhile (fun c => !(c = '\n')) (body.take 1024) <+: body.take 1024 :=
      List.takeWhile_prefix _
    have h3 : scanFirstLine (body.take 1024)
        <+: List.takeWhile (fun c => !(c = '\n')) (body.take 1024) := by
      unfold scanFirstLine dropCR
      by_cases hcr :
        (List.takeWhile (fun c => !(c = '\n')) (body.take 1024)).getLast? = some '\r'
      · rw [if_pos hcr]
        exact List.dropLast_prefix _
      · rw [if_neg hcr]
    exact h3.trans h1
  constructor
  · constructor
    · intro h
      by_cases hc : status < 200 ∨ 300 ≤ status
      · simp only [classifySend] at h
        rw [if_pos hc] at h
        exact absurd h (by simp)
      · omega
    · intro h
      have hc : ¬ (status < 200 ∨ 300 ≤ status) := by omega
      simp only [classifySend]
      rw [if_neg hc]
  · intro hc
    refine ⟨?_, ?_, ?_⟩
    · simp only [classifySend]
      rw [if_pos hc]
    · have h2 := List.take_prefix 1024 body
      exact hpfx.trans h2
    · have h4 := hpfx.length_le
      have h5 : (body.take 1024).length ≤ 1024 := by
        simp [List.length_take]
      omega

theorem classifySend_spec_witness :
    classifySend 404 "404 Not Found" "no such page".data
        = some ("server returned HTTP status " ++ "404 Not Found" ++ " (" ++ toString 404
            ++ "): " ++ String.mk (scanFirstLine ("no such page".data.take 1024)))
    ∧ scanFirstLine ("no such page".data.take 1024) <+: "no such page".data
    ∧ (scanFirstLine ("no such page".data.take 1024)).length ≤ 1024 :=
  (classifySend_spec 404 "404 Not Found" "no such page".data).2 (by omega)

/-- C6: flushing an empty batch is a no-op; after any flush the batch is
empty regardless of the delivery outcome; a failed delivery appends exactly
one diagnostic line consisting of the operation text and the cause, and a
successful delivery appends nothing. -/
theorem mustSendBatch_flush_semantics (trig : Trigger) (msg : String) (out : Option String)
    (s : EngineState) :
    (s.batch = [] → mustSendBatch trig out s = s)
  ∧ (mustSendBatch trig out s).batch = []
  ∧ (¬ s.batch = []
      → (mustSendBatch trig (some msg) s).errLog
          = s.errLog ++ ["failed to send batch: " ++ msg])
  ∧ (mustSendBatch trig none s).errLog = s.errLog := by
  refine ⟨fun h => mustSendBatch_empty trig out s h, mustSendBatch_batch_nil trig out s,
    fun h => ?_, ?_⟩
  · rw [mustSendBatch_spec _ _ _ h]
  · by_cases h : s.batch = []
    · rw [mustSendBatch_empty _ _ _ h]
    · rw [mustSendBatch_spec _ _ _ h]
      simp

theorem mustSendBatch_flush_semantics_witness :
    (mustSendBatch Trigger.manual (some "boom") ⟨[⟨0, "a"⟩], false, [], []⟩).errLog
      = ["failed to send batch: boom"]
  ∧ mustSendBatch Trigger.manual none ⟨[], true, [], []⟩ = ⟨[], true, [], []⟩ :=
  ⟨(mustSendBatch_flush_semantics Trigger.manual "boom" (some "boom")
      ⟨[⟨0, "a"⟩], false, [], []⟩).2.2.1 (by decide),
   (mustSendBatch_flush_semantics Trigger.manual "x" none ⟨[], true, [], []⟩).1 rfl⟩

/-- C7: the label encoder is deterministic — any two iteration orders of a
label map with distinct keys render identically — its key list is sorted
ascending in Go string order, and the two concrete renderings of the claim
hold exactly. -/
theorem formatLabels_deterministic (l1 l2 : List (String × String))
    (hnd : (l1.map Prod.fst).Nodup) (hp : List.Perm l1 l2) :
    formatLabels l1 = formatLabels l2
  ∧ List.Sorted (fun a b => strLe a b = true) (labelKeys l1)
  ∧ formatLabels [("app", "x"), ("env", "y")] = "\x7bapp=\"x\", env=\"y\"\x7d"
  ∧ formatLabels [] = "\x7b\x7d" := by
  refine ⟨?_, sortStrings_sorted _, by decide, by decide⟩
  have hkeys : labelKeys l1 = labelKeys l2 := by
    unfold labelKeys
    exact sortStrings_eq_of_perm _ _ (hp.map Prod.fst)
  have hlook : ∀ k, List.lookup k l1 = List.lookup k l2 := lookup_eq_of_perm hp hnd
  have hmap : List.map (fun k => k ++ "=" ++ strconvQuote goIsPrint ((List.lookup k l1).getD ""))
        (labelKeys l2)
      = List.map (fun k => k ++ "=" ++ strconvQuote goIsPrint ((List.lookup k l2).getD ""))
        (labelKeys l2) :=
    List.map_congr_left (fun k _ => by rw [hlook k])
  simp only [formatLabels]
  rw [hkeys, hmap]

theorem formatLabels_deterministic_witness :
    formatLabels [("env", "y"), ("app", "x")] = formatLabels [("app", "x"), ("env", "y")] :=
  (formatLabels_deterministic [("env", "y"), ("app", "x")] [("app", "x"), ("env", "y")]
    (by decide) (List.Perm.swap ("app", "x") ("env", "y") [])).1

/-- Unfolding of strconvUnquote on a string starting with a double quote. -/
theorem strconvUnquote_mk (t : List Char) :
    strconvUnquote (String.mk ('"' :: t))
      = (match parseBodyF (t.length + 1) t with
         | some (cs, []) => some (String.mk cs)
         | _ => none) := rfl

/-- C8: unquoting inverts quoting — for every value string, parsing the
rendering the label encoder produces under the same quoting convention
returns the original value exactly. -/
theorem quote_unquote_id (v : String) :
    strconvUnquote (strconvQuote goIsPrint v) = some v := by
  have hq : strconvQuote goIsPrint v
      = String.mk ('"' :: (v.data.flatMap (quoteChar goIsPrint) ++ ['"'])) := rfl
  rw [hq, strconvUnquote_mk]
  have hlen : v.data.length + 1 ≤ (v.data.flatMap (quoteChar goIsPrint) ++ ['"']).length + 1 := by
    have h := flatMapQuote_length goIsPrint v.data
    simp only [List.length_append, List.length_cons, List.length_nil]
    omega
  rw [parseBodyF_quoted goIsPrint v.data _ [] hlen]

/-- C9: with validation enabled, a payload the JSON validator rejects makes
Write return zero bytes and the ErrInvalidJSON sentinel, with the channel
unchanged and nothing mirrored to the secondary sink. -/
theorem write_invalid_json_rejected (jsonValid : String → Bool)
    (outSink : Option (String → Nat × Option String)) (now : Int) (chan : List entry)
    (b : String) (hv : jsonValid b = false) :
    WriteCall true jsonValid outSink now chan b = ⟨0, some errInvalidJSON, chan, []⟩ := by
  simp only [WriteCall]
  rw [if_pos (by simp [hv])]

theorem write_invalid_json_rejected_witness :
    WriteCall true (fun _ => false) none 0 [] "oops" = ⟨0, some errInvalidJSON, [], []⟩ :=
  write_invalid_json_rejected (fun _ => false) none 0 [] "oops" rfl

/-- C10: when validation passes or is disabled, the entry is enqueued on the
channel unconditionally, and the returned pair is exactly the secondary
sink result when a sink is present (it is the stdout sink by default in the
constructor) and the payload length with no error when the sink is nil. -/
theorem write_forwarding (checkJSON : Bool) (jsonValid : String → Bool)
    (outSink : Option (String → Nat × Option String)) (now : Int) (chan : List entry)
    (b : String) (stdout : String → Nat × Option String)
    (hv : checkJSON = true → jsonValid b = true) :
    (WriteCall checkJSON jsonValid outSink now chan b).chanAfter = chan ++ [⟨now, b⟩]
  ∧ (∀ f, outSink = some f →
      (WriteCall checkJSON jsonValid outSink now chan b).n = (f b).1
      ∧ (WriteCall checkJSON jsonValid outSink now chan b).err = (f b).2
      ∧ (WriteCall checkJSON jsonValid outSink now chan b).mirrored = [b])
  ∧ (outSink = none →
      (WriteCall checkJSON jsonValid outSink now chan b).n = b.length
      ∧ (WriteCall checkJSON jsonValid outSink now chan b).err = none
      ∧ (WriteCall checkJSON jsonValid outSink now chan b).mirrored = [])
  ∧ (newWriterCfg stdout []).outSink = some stdout := by
  have hcond : ¬ (checkJSON ∧ ¬ jsonValid b) := by
    intro hand
    exact hand.2 (hv hand.1)
  simp only [WriteCall]
  rw [if_neg hcond]
  refine ⟨?_, ?_, ?_, rfl⟩
  · cases outSink <;> rfl
  · intro f hf
    subst hf
    exact ⟨rfl, rfl, rfl⟩
  · intro hf
    subst hf
    exact ⟨rfl, rfl, rfl⟩

theorem write_forwarding_witness :
    (WriteCall false (fun _ => true) none 0 [] "x").chanAfter = [] ++ [⟨0, "x"⟩]
  ∧ (WriteCall false (fun _ => true) none 0 [] "x").n = "x".length
  ∧ (WriteCall false (fun _ => true) none 0 [] "x").err = none
  ∧ (newWriterCfg (fun s => (s.length, none)) []).outSink
      = some (fun s => (s.length, none)) := by
  have h := write_forwarding false (fun _ => true) none 0 [] "x" (fun s => (s.length, none))
    (fun _ => rfl)
  exact ⟨h.1, (h.2.2.1 rfl).1, (h.2.2.1 rfl).2.1, h.2.2.2⟩
